import Mathlib

/-!
Verification of the valuation engine of the 1-1-1-rule NASDAQ-100 data
pipeline (`transform_valuation.py`).

Modelling conventions:
* pandas cells holding a float that may be NaN are modelled as `Option α`
  over a linear ordered field `α` (`none` = NaN/absent); the pipeline is
  instantiated at `ℝ` (the Graham value uses a square root), concrete
  examples at `ℚ`.  IEEE infinities are outside the model: the normalizer
  maps them to NaN before any arithmetic happens, so cleansed tables never
  contain them.
* strings are modelled as `List Char` (`Str`); `str.strip` / `str.upper` /
  `str.replace(".", "-")` become the list operations below.  `upper` is
  modelled on the ASCII letters, which is what ticker symbols use.
* a DataFrame is a `List (Row α)` in row order; column assignments become
  per-row `map`s, which is what the source's `iterrows` loops do.
-/

namespace OneRule

/-- Characters of a Python string; `none`-valued cells of the `ticker`
column are rendered by `astype(str)` as the text `"nan"`. -/
abbrev Str := List Char

/-- The whitespace characters removed by Python's `str.strip()`
(ASCII range). -/
def isSpace (c : Char) : Bool :=
  c == ' ' || c == '\t' || c == '\n' || c == '\r' || c == '\x0b' || c == '\x0c'

/-- The lowercase/uppercase ASCII letter pairs used by `str.upper()`. -/
def upPairs : List (Char × Char) :=
  [('a', 'A'), ('b', 'B'), ('c', 'C'), ('d', 'D'), ('e', 'E'), ('f', 'F'),
   ('g', 'G'), ('h', 'H'), ('i', 'I'), ('j', 'J'), ('k', 'K'), ('l', 'L'),
   ('m', 'M'), ('n', 'N'), ('o', 'O'), ('p', 'P'), ('q', 'Q'), ('r', 'R'),
   ('s', 'S'), ('t', 'T'), ('u', 'U'), ('v', 'V'), ('w', 'W'), ('x', 'X'),
   ('y', 'Y'), ('z', 'Z')]

/-- Model of `str.upper()` on one character: a lowercase ASCII letter becomes its
uppercase partner, everything else is unchanged. -/
def upChar (c : Char) : Char :=
  match upPairs.find? (fun p => p.1 == c) with
  | some p => p.2
  | none => c

/-- Model of `str.replace(".", "-")` on one character (the pattern is a single
character, so the replacement acts characterwise). -/
def rdChar (c : Char) : Char :=
  if c == '.' then '-' else c

/-- Model of `str.strip()`: drop whitespace from both ends. -/
def strip (s : Str) : Str :=
  ((s.dropWhile isSpace).reverse.dropWhile isSpace).reverse

/-- The ticker normalization of `cleanse_fundamentals`
(`.str.strip().str.upper().str.replace(".", "-", regex=False)`). -/
def normalizeTicker (s : Str) : Str :=
  ((strip s).map upChar).map rdChar

/-- The `astype(str)` rendering of a possibly-NaN ticker cell. -/
def nanStr : Str := ['n', 'a', 'n']

/-- The literal `"Unknown"` used as the default sector. -/
def unknownStr : Str := ['U', 'n', 'k', 'n', 'o', 'w', 'n']

/-- One row of the fundamentals table (the columns listed in the
`cleanse_fundamentals` schema).  The float columns are `Option α`
(`none` = NaN); the source column `peg_ratio` is modelled by the field
`peg_ratio_val`. -/
structure Row (α : Type) where
  ticker : Option Str
  company : Option Str
  sector : Option Str
  price : Option α
  market_cap : Option α
  trailing_pe : Option α
  forward_pe : Option α
  trailing_eps : Option α
  forward_eps : Option α
  earnings_growth : Option α
  peg_ratio_val : Option α
  book_value_per_share : Option α
  target_mean_price : Option α
  deriving DecidableEq

variable {α : Type} [LinearOrderedField α]

/-- The `astype(str)` conversion of the ticker column: a present string is kept, a NaN
cell becomes the text `"nan"`. -/
def tickerStr : Option Str → Str
  | some s => s
  | none => nanStr

/-- The ticker-normalization pass of `cleanse_fundamentals` (lines
105-111): the ticker column becomes `astype(str)` + strip + upper +
dot-to-dash, all other columns unchanged. -/
def normalizeRow (r : Row α) : Row α :=
  { r with ticker := some (normalizeTicker (tickerStr r.ticker)) }

/-- The row filter of line 112.  After `astype(str)` every cell is a
non-null string, so `notna()` is vacuous and the filter keeps exactly the
rows with a non-empty ticker. -/
def keepTicker (r : Row α) : Bool :=
  !(tickerStr r.ticker).isEmpty

/-- The deduplication key of a row: its ticker text (as `astype(str)`
renders it). -/
def tickerKey (r : Row α) : Str :=
  tickerStr r.ticker

/-- Model of `drop_duplicates(subset=["ticker"], keep="first")`: keep a row only if
its ticker has not been seen before. -/
def dedupBy (seen : List Str) : List (Row α) → List (Row α)
  | [] => []
  | r :: rest =>
    if tickerKey r ∈ seen then dedupBy seen rest
    else r :: dedupBy (tickerKey r :: seen) rest

/-- First-occurrence deduplication of a list of strings; the length of
`dedupStr [] l` is the number of distinct elements of `l`. -/
def dedupStr (seen : List Str) : List Str → List Str
  | [] => []
  | k :: rest =>
    if k ∈ seen then dedupStr seen rest
    else k :: dedupStr (k :: seen) rest

/-- The normalized ticker texts of a table, in row order. -/
def normTickers (df : List (Row α)) : List Str :=
  df.map (fun r => normalizeTicker (tickerStr r.ticker))

/-- Model of `df.loc[df[col] <= 0, col] = np.nan`: non-positive values become NaN. -/
def clampPos (v : Option α) : Option α :=
  match v with
  | some x => if x ≤ 0 then none else some x
  | none => none

/-- Model of `df["sector"].replace("", "Unknown").fillna("Unknown")`. -/
def sectorFix (s : Option Str) : Str :=
  match s with
  | some t => if t = [] then unknownStr else t
  | none => unknownStr

/-- The value-cleansing pass of `cleanse_fundamentals` (lines 142-147):
clamp price and market cap, default the sector.  (The pandera schema of
lines 115-138 only coerces dtypes, which the typed model makes vacuous,
and the infinity replacement of line 140 is vacuous as well since the
model has no infinities.) -/
def cleanseFields (r : Row α) : Row α :=
  { r with
    price := clampPos r.price
    market_cap := clampPos r.market_cap
    sector := some (sectorFix r.sector) }

/-- Model of `cleanse_fundamentals`: normalize tickers, drop empty tickers,
deduplicate keeping the first occurrence, then cleanse the value
columns. -/
def cleanse_fundamentals (df : List (Row α)) : List (Row α) :=
  (dedupBy [] ((df.map normalizeRow).filter keepTicker)).map cleanseFields

/-- A row whose ticker is a single blank and every other field is absent
(all numeric fields NaN). -/
def rowWS : Row ℚ :=
  { ticker := some [' '], company := none, sector := none, price := none,
    market_cap := none, trailing_pe := none, forward_pe := none,
    trailing_eps := none, forward_eps := none, earnings_growth := none,
    peg_ratio_val := none, book_value_per_share := none,
    target_mean_price := none }

/-- A row whose ticker cell is absent (NaN) and every other field is
absent as well. -/
def rowNaN : Row ℚ :=
  { ticker := none, company := none, sector := none, price := none,
    market_cap := none, trailing_pe := none, forward_pe := none,
    trailing_eps := none, forward_eps := none, earnings_growth := none,
    peg_ratio_val := none, book_value_per_share := none,
    target_mean_price := none }

/-- What the normalizer makes of `rowNaN`: ticker text `"NAN"`, sector
defaulted to `"Unknown"`. -/
def rowNaNOut : Row ℚ :=
  { ticker := some ['N', 'A', 'N'], company := none,
    sector := some unknownStr, price := none, market_cap := none,
    trailing_pe := none, forward_pe := none, trailing_eps := none,
    forward_eps := none, earnings_growth := none, peg_ratio_val := none,
    book_value_per_share := none, target_mean_price := none }

/-- An optional value that is absent or strictly positive. -/
def optPosP (o : Option α) : Prop :=
  match o with
  | some x => 0 < x
  | none => True

/-- The five configured thresholds (`ValuationThresholds`). -/
structure ValuationThresholds (α : Type) where
  undervalued : α
  overvalued : α
  peg_max : α
  pe_sector_max_mult : α
  margin_of_safety_min : α

/-- The idiom `pd.notna(x) and x > 0` of the fallback chains: the value of
`x` when it is present and positive, `none` otherwise. -/
def posPart (o : Option α) : Option α :=
  match o with
  | some x => if 0 < x then some x else none
  | none => none

/-- Model of `pd.Series.fillna` on one cell / the `if pd.isna(pe): pe = overall`
fallback: the first value if present, else the second. -/
def orElseO (a b : Option α) : Option α :=
  match a with
  | some v => some v
  | none => b

/-- Line 199 of `_compute_peg_ratio`:
`earnings_growth * 100 if earnings_growth <= 1 else earnings_growth`. -/
def growthPct (g : α) : α :=
  if g ≤ 1 then g * 100 else g

/-- Fourth tier of `_select_fair_value` (lines 170-176): forward EPS times
the forward-PE multiple (sector median, else overall), else missing. -/
def fairTier4 (feps sfpe ofpe : Option α) : Option α × String :=
  match posPart feps, posPart (orElseO sfpe ofpe) with
  | some f, some pe => (some (f * pe), "sector_median_forward_pe")
  | _, _ => (none, "missing")

/-- Third tier of `_select_fair_value` (lines 162-168): trailing EPS times
the trailing-PE multiple, else fall through to the fourth tier. -/
def fairTier3 (eps feps spe ope sfpe ofpe : Option α) : Option α × String :=
  match posPart eps, posPart (orElseO spe ope) with
  | some e, some pe => (some (e * pe), "sector_median_trailing_pe")
  | _, _ => fairTier4 feps sfpe ofpe

/-- Second tier of `_select_fair_value` (lines 158-160): the analyst mean
target, else fall through. -/
def fairTier2 (target eps feps spe ope sfpe ofpe : Option α) :
    Option α × String :=
  match posPart target with
  | some t => (some t, "target_mean_price")
  | none => fairTier3 eps feps spe ope sfpe ofpe

/-- Model of `_select_fair_value` (lines 152-178): the 4-tier first-match-wins fair
value chain.  `spe`/`ope` are the sector and overall median trailing PE
for the row, `sfpe`/`ofpe` the forward counterparts. -/
def selectFairValue (graham target eps feps spe ope sfpe ofpe : Option α) :
    Option α × String :=
  match posPart graham with
  | some g => (some g, "graham_value")
  | none => fairTier2 target eps feps spe ope sfpe ofpe

/-- The derived-PEG branch of `_compute_peg_ratio` (lines 196-203). -/
def pegDerived (pe growth : Option α) : Option α × String :=
  match posPart pe, posPart growth with
  | some t, some g =>
    if 0 < growthPct g then (some (t / growthPct g), "derived")
    else (none, "missing")
  | _, _ => (none, "missing")

/-- Model of `_compute_peg_ratio` (lines 190-203): reported PEG when present and
positive, else PE over growth-as-percentage, else missing. -/
def computePeg (peg pe growth : Option α) : Option α × String :=
  match posPart peg with
  | some v => (some v, "reported")
  | none => pegDerived pe growth

/-- Model of `_compute_graham_value` (lines 181-187):
`sqrt(22.5 * eps * book_value)` when both inputs are present and
positive. -/
noncomputable def computeGrahamValue (eps bv : Option ℝ) : Option ℝ :=
  match eps, bv with
  | some e, some b =>
    if 0 < e ∧ 0 < b then some (Real.sqrt (22.5 * e * b)) else none
  | _, _ => none

/-- Lines 254-258: `np.where(graham > 0, (graham - price) / graham, nan)`;
a NaN price makes the quotient NaN. -/
def marginOfSafety (g p : Option α) : Option α :=
  match g with
  | some gv =>
    if 0 < gv then
      match p with
      | some pv => some ((gv - pv) / gv)
      | none => none
    else none
  | none => none

/-- Model of `_pass_fail_unknown` (lines 206-210). -/
def passFailUnknown (valid : Bool) (condition : Bool) : String :=
  if !valid then "unknown" else if condition then "pass" else "fail"

/-- Model of `peg_valid` (line 260): the (overwritten) PEG is present and
positive. -/
def pegValid (peg : Option α) : Bool :=
  match peg with
  | some v => decide (0 < v)
  | none => false

/-- The condition `value < thresholds.peg_max` of line 262 (false on a NaN
value, as in pandas). -/
def pegCond (peg : Option α) (m : α) : Bool :=
  match peg with
  | some v => decide (v < m)
  | none => false

/-- The `peg_pass` column (lines 260-264). -/
def pegPassCol (peg : Option α) (m : α) : String :=
  passFailUnknown (pegValid peg) (pegCond peg m)

/-- Model of `pe_valid` (line 266): trailing PE and the used median are present. -/
def peValid (pe med : Option α) : Bool :=
  pe.isSome && med.isSome

/-- The condition `pe <= median_pe * mult` of line 270 (false on NaN). -/
def peCond (pe med : Option α) (mult : α) : Bool :=
  match pe, med with
  | some p, some m => decide (p ≤ m * mult)
  | _, _ => false

/-- The `pe_vs_sector_pass` column (lines 266-273). -/
def pePassCol (pe med : Option α) (mult : α) : String :=
  passFailUnknown (peValid pe med) (peCond pe med mult)

/-- The condition `mos >= thresholds.margin_of_safety_min` of line 277
(false on NaN). -/
def mosCond (mos : Option α) (mn : α) : Bool :=
  match mos with
  | some v => decide (mn ≤ v)
  | none => false

/-- The `margin_of_safety_pass` column (lines 275-279); `mos_valid` is
just presence. -/
def mosPassCol (mos : Option α) (mn : α) : String :=
  passFailUnknown mos.isSome (mosCond mos mn)

/-- Model of `hunter_classify` (lines 281-291): unknown if any check is unknown,
pass if all pass, else fail. -/
def hunter_classify (a b c : String) : String :=
  if a == "unknown" || b == "unknown" || c == "unknown" then "unknown"
  else if a == "pass" && b == "pass" && c == "pass" then "pass"
  else "fail"

/-- Model of `classify` (lines 295-304): price-vs-fair-value verdict. -/
def classify (price fv : Option α) (th : ValuationThresholds α) : String :=
  match price, fv with
  | some p, some f =>
    if f ≤ 0 then "unknown"
    else if p ≤ f * th.undervalued then "undervalued"
    else if p ≥ f * th.overvalued then "overvalued"
    else "fair"
  | _, _ => "unknown"

/-- Line 307: `pct_diff = (price - fair_value) / fair_value` (NaN
propagates). -/
def pctDiff (p f : Option α) : Option α :=
  match p, f with
  | some pv, some fv => some ((pv - fv) / fv)
  | _, _ => none

/-- The pandas `median` of a list of present values: middle element of
the sorted list, or the mean of the two middle elements; NaN (`none`) on
an empty list. -/
def medianList (xs : List α) : Option α :=
  let n := xs.length
  if n = 0 then none
  else
    let s := xs.mergeSort (fun a b => decide (a ≤ b))
    if n % 2 = 1 then s[n / 2]?
    else
      match s[n / 2 - 1]?, s[n / 2]? with
      | some a, some b => some ((a + b) / 2)
      | _, _ => none

/-- Model of `df.groupby("sector")[col].median()` followed by the `.get` lookup of
`_select_fair_value`: the median of the present `col` values of the rows
with the given sector.  A NaN sector is never a group key (pandas drops
NaN keys), so the lookup yields NaN. -/
def sectorGroupMedian (df : List (Row α)) (col : Row α → Option α)
    (sec : Option Str) : Option α :=
  match sec with
  | none => none
  | some t => medianList ((df.filter (fun r => r.sector == some t)).filterMap col)

/-- Model of `df[col].median()`: median of all present values of the column. -/
def overallMedian (df : List (Row α)) (col : Row α → Option α) : Option α :=
  medianList (df.filterMap col)

/-- One output row of `apply_valuation`: the input row plus the derived
columns (source columns `peg_ratio` / `peg_ratio_source` are the fields
`peg_ratio_val` / `peg_ratio_source`). -/
structure ValuedRow where
  base : Row ℝ
  graham_value : Option ℝ
  peg_ratio_val : Option ℝ
  peg_ratio_source : String
  sector_median_pe : Option ℝ
  pe_median_used : Option ℝ
  fair_value : Option ℝ
  fair_value_source : String
  margin_of_safety : Option ℝ
  peg_pass : String
  pe_vs_sector_pass : String
  margin_of_safety_pass : String
  valuation_hunter : String
  valuation : String
  pct_diff : Option ℝ

/-- The per-row work of `apply_valuation` (lines 221-307), given the
row's sector median PE lookups and the overall medians. -/
noncomputable def valueRow (r : Row ℝ) (spe ope sfpe ofpe : Option ℝ)
    (th : ValuationThresholds ℝ) : ValuedRow :=
  let graham := computeGrahamValue r.trailing_eps r.book_value_per_share
  let pegPair := computePeg r.peg_ratio_val r.trailing_pe r.earnings_growth
  let used := orElseO spe ope
  let fvPair := selectFairValue graham r.target_mean_price r.trailing_eps
    r.forward_eps spe ope sfpe ofpe
  let mos := marginOfSafety graham r.price
  let pp := pegPassCol pegPair.1 th.peg_max
  let sp := pePassCol r.trailing_pe used th.pe_sector_max_mult
  let mp := mosPassCol mos th.margin_of_safety_min
  { base := r
    graham_value := graham
    peg_ratio_val := pegPair.1
    peg_ratio_source := pegPair.2
    sector_median_pe := spe
    pe_median_used := used
    fair_value := fvPair.1
    fair_value_source := fvPair.2
    margin_of_safety := mos
    peg_pass := pp
    pe_vs_sector_pass := sp
    margin_of_safety_pass := mp
    valuation_hunter := hunter_classify pp sp mp
    valuation := classify r.price fvPair.1 th
    pct_diff := pctDiff r.price fvPair.1 }

/-- Model of `apply_valuation` (lines 213-309): compute the cohort medians once,
then derive every row. -/
noncomputable def apply_valuation (df : List (Row ℝ))
    (th : ValuationThresholds ℝ) : List ValuedRow :=
  df.map (fun r =>
    valueRow r
      (sectorGroupMedian df (fun x => x.trailing_pe) r.sector)
      (overallMedian df (fun x => x.trailing_pe))
      (sectorGroupMedian df (fun x => x.forward_pe) r.sector)
      (overallMedian df (fun x => x.forward_pe))
      th)

/-! ## Spec-side definitions

The following definitions transcribe §4.3/§4.4 of the specification (the
wording of the claims), to be compared with the code-side functions
above. -/

/-- Present and > 0, as the spec words it. -/
def PosIn (o : Option α) : Prop :=
  ∃ v, o = some v ∧ 0 < v

open Classical in
/-- Spec §4.3 fair value: the 4-tier first-satisfied-wins chain, worded
from the spec. -/
noncomputable def specFairValue (graham target eps feps spe ope sfpe ofpe :
    Option α) : Option α × String :=
  if PosIn graham then (graham, "graham_value")
  else if PosIn target then (target, "target_mean_price")
  else if PosIn eps ∧ PosIn (orElseO spe ope) then
    (Option.map₂ (· * ·) eps (orElseO spe ope), "sector_median_trailing_pe")
  else if PosIn feps ∧ PosIn (orElseO sfpe ofpe) then
    (Option.map₂ (· * ·) feps (orElseO sfpe ofpe), "sector_median_forward_pe")
  else (none, "missing")

open Classical in
/-- Spec §4.3 PEG: reported when present and positive; else PE divided by
the growth percentage when PE and growth are present and positive and the
percentage is positive; else missing. -/
noncomputable def specPeg (peg pe growth : Option α) : Option α × String :=
  if PosIn peg then (peg, "reported")
  else if PosIn pe ∧ PosIn growth then
    (if PosIn (growth.map growthPct) then
      (Option.map₂ (· / ·) pe (growth.map growthPct), "derived")
    else (none, "missing"))
  else (none, "missing")

open Classical in
/-- Spec §4.3 Graham value: `sqrt(22.5 × trailing_eps ×
book_value_per_share)` when both are present and > 0, else absent. -/
noncomputable def specGraham (eps bv : Option ℝ) : Option ℝ :=
  if PosIn eps ∧ PosIn bv then
    Option.map₂ (fun e b => Real.sqrt (22.5 * e * b)) eps bv
  else none

open Classical in
/-- Spec §4.3 margin of safety: `(graham − price) / graham` when the
Graham value is present and > 0 (an absent price propagates to absent),
else absent. -/
noncomputable def specMos (g p : Option α) : Option α :=
  if PosIn g then Option.map₂ (fun gv pv => (gv - pv) / gv) g p
  else none

open Classical in
/-- Spec §4.4 valuation verdict, worded from the spec. -/
noncomputable def specClassify (price fv : Option α)
    (th : ValuationThresholds α) : String :=
  if price = none ∨ fv = none ∨ (∃ f, fv = some f ∧ f ≤ 0) then "unknown"
  else if ∃ p f, price = some p ∧ fv = some f ∧ p ≤ f * th.undervalued then
    "undervalued"
  else if ∃ p f, price = some p ∧ fv = some f ∧ f * th.overvalued ≤ p then
    "overvalued"
  else "fair"

/-- Spec §4.4 aggregate verdict: unknown if any check is unknown, else
pass iff all three pass, else fail. -/
def specHunter (a b c : String) : String :=
  if a = "unknown" ∨ b = "unknown" ∨ c = "unknown" then "unknown"
  else if a = "pass" ∧ b = "pass" ∧ c = "pass" then "pass"
  else "fail"

/-! ## Helper lemmas about `posPart` -/

theorem posPart_some_iff {o : Option α} {v : α} :
    posPart o = some v ↔ o = some v ∧ 0 < v := by
  cases o with
  | none => simp [posPart]
  | some x =>
    by_cases h : 0 < x <;> simp [posPart, h] <;> aesop

theorem posPart_none_iff {o : Option α} :
    posPart o = none ↔ ¬ PosIn o := by
  cases o with
  | none => simp [posPart, PosIn]
  | some x =>
    by_cases h : 0 < x <;> simp [posPart, PosIn, h]

theorem posIn_of_posPart_some {o : Option α} {v : α}
    (h : posPart o = some v) : PosIn o :=
  ⟨v, posPart_some_iff.mp h⟩

theorem not_posIn_of_posPart_none {o : Option α}
    (h : posPart o = none) : ¬ PosIn o :=
  posPart_none_iff.mp h

theorem posIn_some_iff {x : α} : PosIn (some x) ↔ 0 < x := by
  simp [PosIn]

/-! ## Tier-by-tier equivalence of the fair-value chain with the spec -/

open Classical in
theorem fairTier4_eq (feps sfpe ofpe : Option α) :
    fairTier4 feps sfpe ofpe =
      if PosIn feps ∧ PosIn (orElseO sfpe ofpe) then
        (Option.map₂ (· * ·) feps (orElseO sfpe ofpe),
          "sector_median_forward_pe")
      else (none, "missing") := by
  unfold fairTier4
  rcases hf : posPart feps with _ | f <;>
    rcases hm : posPart (orElseO sfpe ofpe) with _ | m
  · rw [if_neg (fun h => not_posIn_of_posPart_none hf h.1)]
  · rw [if_neg (fun h => not_posIn_of_posPart_none hf h.1)]
  · rw [if_neg (fun h => not_posIn_of_posPart_none hm h.2)]
  · obtain ⟨e1, _⟩ := posPart_some_iff.mp hf
    obtain ⟨e2, _⟩ := posPart_some_iff.mp hm
    rw [if_pos ⟨posIn_of_posPart_some hf, posIn_of_posPart_some hm⟩, e1, e2]
    simp [Option.map₂]

open Classical in
theorem fairTier3_eq (eps feps spe ope sfpe ofpe : Option α) :
    fairTier3 eps feps spe ope sfpe ofpe =
      if PosIn eps ∧ PosIn (orElseO spe ope) then
        (Option.map₂ (· * ·) eps (orElseO spe ope),
          "sector_median_trailing_pe")
      else if PosIn feps ∧ PosIn (orElseO sfpe ofpe) then
        (Option.map₂ (· * ·) feps (orElseO sfpe ofpe),
          "sector_median_forward_pe")
      else (none, "missing") := by
  unfold fairTier3
  rcases he : posPart eps with _ | e <;>
    rcases hm : posPart (orElseO spe ope) with _ | m
  · rw [if_neg (fun h => not_posIn_of_posPart_none he h.1)]
    exact fairTier4_eq feps sfpe ofpe
  · rw [if_neg (fun h => not_posIn_of_posPart_none he h.1)]
    exact fairTier4_eq feps sfpe ofpe
  · rw [if_neg (fun h => not_posIn_of_posPart_none hm h.2)]
    exact fairTier4_eq feps sfpe ofpe
  · obtain ⟨e1, _⟩ := posPart_some_iff.mp he
    obtain ⟨e2, _⟩ := posPart_some_iff.mp hm
    rw [if_pos ⟨posIn_of_posPart_some he, posIn_of_posPart_some hm⟩, e1, e2]
    simp [Option.map₂]

open Classical in
theorem fairTier2_eq (target eps feps spe ope sfpe ofpe : Option α) :
    fairTier2 target eps feps spe ope sfpe ofpe =
      if PosIn target then (target, "target_mean_price")
      else if PosIn eps ∧ PosIn (orElseO spe ope) then
        (Option.map₂ (· * ·) eps (orElseO spe ope),
          "sector_median_trailing_pe")
      else if PosIn feps ∧ PosIn (orElseO sfpe ofpe) then
        (Option.map₂ (· * ·) feps (orElseO sfpe ofpe),
          "sector_median_forward_pe")
      else (none, "missing") := by
  unfold fairTier2
  rcases ht : posPart target with _ | t
  · rw [if_neg (not_posIn_of_posPart_none ht)]
    exact fairTier3_eq eps feps spe ope sfpe ofpe
  · obtain ⟨e1, _⟩ := posPart_some_iff.mp ht
    rw [if_pos (posIn_of_posPart_some ht), e1]

/-- C1: for every row the fair value and its source are chosen by the
4-tier first-match-wins chain of the spec — Graham value, then analyst
target, then trailing EPS times the (sector, else overall) trailing-PE
median, then forward EPS times the forward-PE median, else missing;
`_select_fair_value` coincides with the spec chain on all inputs. -/
theorem c1_fair_value_chain {α : Type} [LinearOrderedField α]
    (graham target eps feps spe ope sfpe ofpe : Option α) :
    selectFairValue graham target eps feps spe ope sfpe ofpe =
      specFairValue graham target eps feps spe ope sfpe ofpe := by
  unfold selectFairValue specFairValue
  rcases hg : posPart graham with _ | g
  · rw [if_neg (not_posIn_of_posPart_none hg)]
    exact fairTier2_eq target eps feps spe ope sfpe ofpe
  · obtain ⟨e1, _⟩ := posPart_some_iff.mp hg
    rw [if_pos (posIn_of_posPart_some hg), e1]

open Classical in
theorem pegDerived_eq (pe growth : Option α) :
    pegDerived pe growth =
      if PosIn pe ∧ PosIn growth then
        (if PosIn (growth.map growthPct) then
          (Option.map₂ (· / ·) pe (growth.map growthPct), "derived")
        else (none, "missing"))
      else (none, "missing") := by
  unfold pegDerived
  rcases hp : posPart pe with _ | t <;>
    rcases hg : posPart growth with _ | g
  · rw [if_neg (fun h => not_posIn_of_posPart_none hp h.1)]
  · rw [if_neg (fun h => not_posIn_of_posPart_none hp h.1)]
  · rw [if_neg (fun h => not_posIn_of_posPart_none hg h.2)]
  · obtain ⟨e1, _⟩ := posPart_some_iff.mp hp
    obtain ⟨e2, _⟩ := posPart_some_iff.mp hg
    rw [if_pos ⟨posIn_of_posPart_some hp, posIn_of_posPart_some hg⟩, e1, e2]
    show (if 0 < growthPct g then (some (t / growthPct g), "derived")
      else ((none : Option α), "missing")) = _
    by_cases hq : 0 < growthPct g
    · rw [if_pos hq, if_pos (by simpa [Option.map_some, posIn_some_iff] using hq)]
      simp [Option.map₂]
    · rw [if_neg hq, if_neg (by simpa [Option.map_some, posIn_some_iff] using hq)]

/-- C2: the PEG ratio follows the two-tier first-match-wins chain of the
spec — the reported PEG when present and positive (source `reported`),
else trailing PE over the growth normalized to a percentage when both are
present and positive and the percentage is positive (source `derived`),
else absent (source `missing`); and on the spec's example (PEG absent,
trailing PE 20, growth 0.15) the derived PEG is 20/15 = 4/3 with source
`derived`. -/
theorem c2_peg_chain :
    (∀ (α : Type) [LinearOrderedField α] (peg pe growth : Option α),
        computePeg peg pe growth = specPeg peg pe growth) ∧
    computePeg (α := ℚ) none (some 20) (some (3 / 20)) =
      (some (4 / 3), "derived") := by
  constructor
  · intro α _ peg pe growth
    unfold computePeg specPeg
    rcases hp : posPart peg with _ | v
    · rw [if_neg (not_posIn_of_posPart_none hp)]
      exact pegDerived_eq pe growth
    · obtain ⟨e1, _⟩ := posPart_some_iff.mp hp
      rw [if_pos (posIn_of_posPart_some hp), e1]
  · norm_num [computePeg, pegDerived, posPart, growthPct]

/-- C3: the Graham value is `sqrt(22.5 × trailing_eps ×
book_value_per_share)` exactly when both inputs are present and positive
(absent otherwise), and the margin of safety is
`(graham − price) / graham` exactly when the Graham value is present and
positive, an absent price propagating to an absent margin. -/
theorem c3_graham_and_mos :
    (∀ eps bv : Option ℝ, computeGrahamValue eps bv = specGraham eps bv) ∧
    (∀ (α : Type) [LinearOrderedField α] (g p : Option α),
        marginOfSafety g p = specMos g p) := by
  constructor
  · intro eps bv
    unfold computeGrahamValue specGraham
    rcases eps with _ | e
    · rw [if_neg (fun h => by obtain ⟨v, hv, _⟩ := h.1; exact Option.noConfusion hv)]
    · rcases bv with _ | b
      · rw [if_neg (fun h => by obtain ⟨v, hv, _⟩ := h.2; exact Option.noConfusion hv)]
      · show (if 0 < e ∧ 0 < b then some (Real.sqrt (22.5 * e * b)) else none) = _
        by_cases hc : 0 < e ∧ 0 < b
        · rw [if_pos hc, if_pos ⟨posIn_some_iff.mpr hc.1, posIn_some_iff.mpr hc.2⟩]
          simp [Option.map₂]
        · rw [if_neg hc, if_neg (fun h =>
            hc ⟨posIn_some_iff.mp h.1, posIn_some_iff.mp h.2⟩)]
  · intro α _ g p
    unfold marginOfSafety specMos
    rcases g with _ | gv
    · rw [if_neg (fun h => by obtain ⟨v, hv, _⟩ := h; exact Option.noConfusion hv)]
    · show (if 0 < gv then _ else none) = _
      by_cases h : 0 < gv
      · rw [if_pos h, if_pos (posIn_some_iff.mpr h)]
        rcases p with _ | pv <;> simp [Option.map₂]
      · rw [if_neg h, if_neg (fun hp => h (posIn_some_iff.mp hp))]

/-- C4: the valuation verdict is `unknown` when price or fair value is
absent or the fair value is ≤ 0, else `undervalued` when
price ≤ fair_value × undervalued_threshold, else `overvalued` when
price ≥ fair_value × overvalued_threshold, else `fair`; and on the spec's
example (price 90, fair value 100, undervalued threshold 0.90) the
boundary is inclusive: the verdict is `undervalued`. -/
theorem c4_classify :
    (∀ (α : Type) [LinearOrderedField α] (price fv : Option α)
        (th : ValuationThresholds α),
        classify price fv th = specClassify price fv th) ∧
    classify (α := ℚ) (some 90) (some 100)
      ⟨9 / 10, 11 / 10, 3, 3 / 2, 1 / 4⟩ = "undervalued" := by
  constructor
  · intro α _ price fv th
    unfold classify specClassify
    rcases price with _ | p
    · rcases fv with _ | f <;> rw [if_pos (Or.inl rfl)]
    · rcases fv with _ | f
      · rw [if_pos (Or.inr (Or.inl rfl))]
      · show (if f ≤ 0 then "unknown"
          else if p ≤ f * th.undervalued then "undervalued"
          else if p ≥ f * th.overvalued then "overvalued"
          else "fair") = _
        by_cases hf : f ≤ 0
        · have hs1 : (some p : Option α) = none ∨ (some f : Option α) = none ∨
              ∃ f', (some f : Option α) = some f' ∧ f' ≤ 0 :=
            Or.inr (Or.inr ⟨f, rfl, hf⟩)
          rw [if_pos hf, if_pos hs1]
        · have hs1 : ¬((some p : Option α) = none ∨ (some f : Option α) = none ∨
              ∃ f', (some f : Option α) = some f' ∧ f' ≤ 0) := by
            rintro (h | h | ⟨f', hf', hle⟩)
            · exact Option.noConfusion h
            · exact Option.noConfusion h
            · cases Option.some.inj hf'; exact hf hle
          rw [if_neg hf, if_neg hs1]
          by_cases hu : p ≤ f * th.undervalued
          · have hs2 : ∃ p' f', (some p : Option α) = some p' ∧
                (some f : Option α) = some f' ∧ p' ≤ f' * th.undervalued :=
              ⟨p, f, rfl, rfl, hu⟩
            rw [if_pos hu, if_pos hs2]
          · have hs2 : ¬∃ p' f', (some p : Option α) = some p' ∧
                (some f : Option α) = some f' ∧ p' ≤ f' * th.undervalued := by
              rintro ⟨p', f', hp', hf', hle⟩
              cases Option.some.inj hp'
              cases Option.some.inj hf'
              exact hu hle
            rw [if_neg hu, if_neg hs2]
            by_cases ho : p ≥ f * th.overvalued
            · have hs3 : ∃ p' f', (some p : Option α) = some p' ∧
                  (some f : Option α) = some f' ∧ f' * th.overvalued ≤ p' :=
                ⟨p, f, rfl, rfl, ho⟩
              rw [if_pos ho, if_pos hs3]
            · have hs3 : ¬∃ p' f', (some p : Option α) = some p' ∧
                  (some f : Option α) = some f' ∧ f' * th.overvalued ≤ p' := by
                rintro ⟨p', f', hp', hf', hle⟩
                cases Option.some.inj hp'
                cases Option.some.inj hf'
                exact ho hle
              rw [if_neg ho, if_neg hs3]
  · norm_num [classify]

/-- C5: the aggregate verdict is `unknown` as soon as one of the three
checks is `unknown`, else `pass` iff all three are `pass` and `fail`
otherwise; in particular a row is never `fail` unless all three checks
were evaluable. -/
theorem c5_hunter :
    (∀ a b c : String, hunter_classify a b c = specHunter a b c) ∧
    (∀ a b c : String, hunter_classify a b c = "fail" →
      a ≠ "unknown" ∧ b ≠ "unknown" ∧ c ≠ "unknown") := by
  constructor
  · intro a b c
    unfold hunter_classify specHunter
    by_cases h1 : a = "unknown" ∨ b = "unknown" ∨ c = "unknown"
    · rw [if_pos (by simpa [or_assoc] using h1), if_pos h1]
    · rw [if_neg (by simpa [or_assoc] using h1), if_neg h1]
      by_cases h2 : a = "pass" ∧ b = "pass" ∧ c = "pass"
      · rw [if_pos (by simpa [and_assoc] using h2), if_pos h2]
      · rw [if_neg (by simpa [and_assoc] using h2), if_neg h2]
  · intro a b c h
    by_cases h1 : a = "unknown" ∨ b = "unknown" ∨ c = "unknown"
    · exfalso
      unfold hunter_classify at h
      rw [if_pos (by simpa [or_assoc] using h1)] at h
      exact absurd h (by decide)
    · push_neg at h1
      exact ⟨h1.1, h1.2.1, h1.2.2⟩

/-- Witness for C5: on the concrete checks pass/pass/fail the aggregate
is `fail` and indeed none of the three checks is `unknown`. -/
theorem c5_hunter_witness :
    "pass" ≠ "unknown" ∧ "pass" ≠ "unknown" ∧ "fail" ≠ "unknown" :=
  c5_hunter.2 "pass" "pass" "fail" (by decide)

/-! ## Positivity of the derived fair value and PEG -/

theorem fairTier4_pos (feps sfpe ofpe : Option α) :
    optPosP (fairTier4 feps sfpe ofpe).1 := by
  unfold fairTier4
  rcases hf : posPart feps with _ | f <;>
    rcases hm : posPart (orElseO sfpe ofpe) with _ | m
  · trivial
  · trivial
  · trivial
  · exact mul_pos (posPart_some_iff.mp hf).2 (posPart_some_iff.mp hm).2

theorem fairTier3_pos (eps feps spe ope sfpe ofpe : Option α) :
    optPosP (fairTier3 eps feps spe ope sfpe ofpe).1 := by
  unfold fairTier3
  rcases he : posPart eps with _ | e <;>
    rcases hm : posPart (orElseO spe ope) with _ | m
  · exact fairTier4_pos feps sfpe ofpe
  · exact fairTier4_pos feps sfpe ofpe
  · exact fairTier4_pos feps sfpe ofpe
  · exact mul_pos (posPart_some_iff.mp he).2 (posPart_some_iff.mp hm).2

theorem selectFairValue_pos (graham target eps feps spe ope sfpe ofpe :
    Option α) :
    optPosP (selectFairValue graham target eps feps spe ope sfpe ofpe).1 := by
  unfold selectFairValue fairTier2
  rcases hg : posPart graham with _ | g
  · rcases ht : posPart target with _ | t
    · exact fairTier3_pos eps feps spe ope sfpe ofpe
    · exact (posPart_some_iff.mp ht).2
  · exact (posPart_some_iff.mp hg).2

theorem computePeg_pos (peg pe growth : Option α) :
    optPosP (computePeg peg pe growth).1 := by
  unfold computePeg pegDerived
  rcases hp : posPart peg with _ | v
  · rcases ht : posPart pe with _ | t <;>
      rcases hg : posPart growth with _ | g
    · trivial
    · trivial
    · trivial
    · show optPosP (if 0 < growthPct g then (some (t / growthPct g), "derived")
        else ((none : Option α), "missing")).1
      by_cases hq : 0 < growthPct g
      · rw [if_pos hq]
        exact div_pos (posPart_some_iff.mp ht).2 hq
      · rw [if_neg hq]
        trivial
  · exact (posPart_some_iff.mp hp).2

theorem valueRow_pos (r : Row ℝ) (spe ope sfpe ofpe : Option ℝ)
    (th : ValuationThresholds ℝ) :
    optPosP (valueRow r spe ope sfpe ofpe th).fair_value ∧
      optPosP (ValuedRow.peg_ratio_val (valueRow r spe ope sfpe ofpe th)) :=
  ⟨selectFairValue_pos _ _ _ _ _ _ _ _, computePeg_pos _ _ _⟩

/-- C9: every output row of `apply_valuation` has a fair value that is
absent or strictly positive (each tier of the chain only fires on a
positive value), so the `fair_value ≤ 0` branch of `classify` can never
be taken on pipeline output; likewise the overwritten PEG column is
absent or strictly positive. -/
theorem c9_derived_pos (df : List (Row ℝ)) (th : ValuationThresholds ℝ) :
    List.Forall
      (fun v => optPosP v.fair_value ∧ optPosP (ValuedRow.peg_ratio_val v))
      (apply_valuation df th) := by
  rw [List.forall_iff_forall_mem]
  intro v hv
  rw [apply_valuation, List.mem_map] at hv
  obtain ⟨r, _, rfl⟩ := hv
  exact valueRow_pos r _ _ _ _ th

/-- C8: on an empty input table the engine runs to completion: the
cohort medians (sector and overall, trailing and forward) are all
absent, `apply_valuation` returns the empty table, and (vacuously) every
output row has verdict `unknown`. -/
theorem c8_empty_table (th : ValuationThresholds ℝ) :
    apply_valuation [] th = [] ∧
    overallMedian ([] : List (Row ℝ)) (fun r => r.trailing_pe) = none ∧
    overallMedian ([] : List (Row ℝ)) (fun r => r.forward_pe) = none ∧
    (∀ s, sectorGroupMedian ([] : List (Row ℝ)) (fun r => r.trailing_pe) s =
      none) ∧
    (∀ s, sectorGroupMedian ([] : List (Row ℝ)) (fun r => r.forward_pe) s =
      none) ∧
    List.Forall (fun v => v.valuation = "unknown") (apply_valuation [] th) := by
  refine ⟨rfl, rfl, rfl, ?_, ?_, ?_⟩
  · intro s
    cases s <;> rfl
  · intro s
    cases s <;> rfl
  · rw [show apply_valuation [] th = [] from rfl]
    trivial

/-! ## Character-level facts about the ticker normalization -/

theorem upPairs_facts : ∀ p ∈ upPairs,
    upPairs.find? (fun q => q.1 == p.2) = none ∧
    isSpace p.1 = false ∧ isSpace p.2 = false ∧
    p.1 ≠ '.' ∧ p.2 ≠ '.' := by decide

theorem upChar_upChar (c : Char) : upChar (upChar c) = upChar c := by
  cases h : upPairs.find? (fun q => q.1 == c) with
  | none => simp [upChar, h]
  | some p =>
    have hp := List.mem_of_find?_eq_some h
    simp [upChar, h, (upPairs_facts p hp).1]

theorem isSpace_upChar (c : Char) : isSpace (upChar c) = isSpace c := by
  cases h : upPairs.find? (fun q => q.1 == c) with
  | none => simp [upChar, h]
  | some p =>
    have hp := List.mem_of_find?_eq_some h
    have hc : p.1 = c := by simpa using List.find?_some h
    rw [upChar, h, ← hc, (upPairs_facts p hp).2.1, (upPairs_facts p hp).2.2.1]

theorem isSpace_rdChar (c : Char) : isSpace (rdChar c) = isSpace c := by
  by_cases h : c = '.'
  · subst h
    decide
  · simp [rdChar, h]

theorem isSpace_rdUp (c : Char) :
    isSpace (rdChar (upChar c)) = isSpace c := by
  rw [isSpace_rdChar, isSpace_upChar]

theorem rdUp_idem (c : Char) :
    rdChar (upChar (rdChar (upChar c))) = rdChar (upChar c) := by
  cases h : upPairs.find? (fun q => q.1 == c) with
  | some p =>
    have hp := List.mem_of_find?_eq_some h
    simp [upChar, rdChar, h, (upPairs_facts p hp).1, (upPairs_facts p hp).2.2.2.2]
  | none =>
    by_cases hdot : c = '.'
    · subst hdot
      decide
    · simp [upChar, rdChar, h, hdot]

/-! ## `strip` is idempotent and commutes with whitespace-preserving
character maps -/

theorem dropWhile_head_false {β : Type} {p : β → Bool} :
    ∀ (l : List β) (a : β) (t : List β), l.dropWhile p = a :: t → p a = false
  | [], a, t, h => by simp [List.dropWhile] at h
  | x :: xs, a, t, h => by
    by_cases hx : p x
    · rw [List.dropWhile_cons, if_pos hx] at h
      exact dropWhile_head_false xs a t h
    · rw [List.dropWhile_cons, if_neg hx] at h
      injection h with h1 _
      subst h1
      simpa using hx

theorem dropWhile_dropWhile {β : Type} (p : β → Bool) (l : List β) :
    (l.dropWhile p).dropWhile p = l.dropWhile p := by
  cases h : l.dropWhile p with
  | nil => simp
  | cons a t =>
    simp [List.dropWhile_cons, dropWhile_head_false l a t h]

theorem dropWhile_map_comm (f : Char → Char)
    (hf : ∀ c, isSpace (f c) = isSpace c) (l : Str) :
    (l.map f).dropWhile isSpace = (l.dropWhile isSpace).map f := by
  rw [List.dropWhile_map]
  have hfe : (isSpace ∘ f) = isSpace := funext hf
  rw [hfe]

theorem strip_map (f : Char → Char)
    (hf : ∀ c, isSpace (f c) = isSpace c) (l : Str) :
    strip (l.map f) = (strip l).map f := by
  unfold strip
  rw [dropWhile_map_comm f hf, ← List.map_reverse, dropWhile_map_comm f hf,
    ← List.map_reverse]

theorem strip_idem (l : Str) : strip (strip l) = strip l := by
  have hA : (strip l).dropWhile isSpace = strip l := by
    cases hc : ((l.dropWhile isSpace).reverse.dropWhile isSpace).reverse with
    | nil =>
      show (strip l).dropWhile isSpace = strip l
      rw [show strip l = ((l.dropWhile isSpace).reverse.dropWhile isSpace).reverse
        from rfl, hc]
      simp
    | cons a t' =>
      have h1 : (l.dropWhile isSpace).reverse.takeWhile isSpace ++
          (l.dropWhile isSpace).reverse.dropWhile isSpace =
          (l.dropWhile isSpace).reverse :=
        List.takeWhile_append_dropWhile isSpace _
      have h2 : ((l.dropWhile isSpace).reverse.dropWhile isSpace).reverse ++
            ((l.dropWhile isSpace).reverse.takeWhile isSpace).reverse =
          l.dropWhile isSpace := by
        have h3 := congrArg List.reverse h1
        rw [List.reverse_append, List.reverse_reverse] at h3
        exact h3
      have h4 : l.dropWhile isSpace = a :: (t' ++
          ((l.dropWhile isSpace).reverse.takeWhile isSpace).reverse) := by
        conv_lhs => rw [← h2, hc]
        simp
      have h5 : isSpace a = false := dropWhile_head_false l a _ h4
      show (strip l).dropWhile isSpace = strip l
      rw [show strip l = ((l.dropWhile isSpace).reverse.dropWhile isSpace).reverse
        from rfl, hc]
      simp [List.dropWhile_cons, h5]
  have hgoal : strip (strip l) =
      ((strip l).reverse.dropWhile isSpace).reverse := by
    show (((strip l).dropWhile isSpace).reverse.dropWhile isSpace).reverse = _
    rw [hA]
  rw [hgoal]
  conv_lhs => rw [show strip l =
    ((l.dropWhile isSpace).reverse.dropWhile isSpace).reverse from rfl]
  rw [List.reverse_reverse, dropWhile_dropWhile]
  rfl

theorem normalizeTicker_idem (s : Str) :
    normalizeTicker (normalizeTicker s) = normalizeTicker s := by
  unfold normalizeTicker
  rw [List.map_map, List.map_map, strip_map (rdChar ∘ upChar) isSpace_rdUp,
    strip_idem, List.map_map]
  exact List.map_congr_left (fun a _ => rdUp_idem a)

theorem normalizeTicker_isEmpty (s : Str) :
    (normalizeTicker s).isEmpty = (strip s).isEmpty := by
  unfold normalizeTicker
  rw [List.map_map]
  cases strip s <;> rfl

/-! ## Structure of the deduplication pass -/

theorem mem_of_mem_dedupBy {α : Type} [LinearOrderedField α] :
    ∀ (seen : List Str) (l : List (Row α)) (r : Row α),
      r ∈ dedupBy seen l → r ∈ l
  | _, [], _, h => by simp [dedupBy] at h
  | seen, x :: rest, r, h => by
    rw [dedupBy] at h
    by_cases hx : tickerKey x ∈ seen
    · rw [if_pos hx] at h
      exact List.mem_cons_of_mem x (mem_of_mem_dedupBy seen rest r h)
    · rw [if_neg hx] at h
      rcases List.mem_cons.mp h with h1 | h1
      · exact h1 ▸ List.mem_cons_self x rest
      · exact List.mem_cons_of_mem x
          (mem_of_mem_dedupBy (tickerKey x :: seen) rest r h1)

theorem dedupBy_map_key {α : Type} [LinearOrderedField α] :
    ∀ (seen : List Str) (l : List (Row α)),
      (dedupBy seen l).map tickerKey = dedupStr seen (l.map tickerKey)
  | _, [] => rfl
  | seen, x :: rest => by
    rw [dedupBy, List.map_cons, dedupStr]
    by_cases hx : tickerKey x ∈ seen
    · rw [if_pos hx, if_pos hx]
      exact dedupBy_map_key seen rest
    · rw [if_neg hx, if_neg hx, List.map_cons]
      rw [dedupBy_map_key (tickerKey x :: seen) rest]

theorem dedupStr_nodup :
    ∀ (seen l : List Str),
      (dedupStr seen l).Nodup ∧ ∀ k ∈ dedupStr seen l, k ∉ seen
  | _, [] => by simp [dedupStr]
  | seen, x :: rest => by
    rw [dedupStr]
    by_cases hx : x ∈ seen
    · rw [if_pos hx]
      exact dedupStr_nodup seen rest
    · rw [if_neg hx]
      obtain ⟨ih1, ih2⟩ := dedupStr_nodup (x :: seen) rest
      refine ⟨List.nodup_cons.mpr ⟨fun hmem => ?_, ih1⟩, ?_⟩
      · exact (ih2 x hmem) (List.mem_cons_self x seen)
      · intro k hk
        rcases List.mem_cons.mp hk with h1 | h1
        · exact h1 ▸ hx
        · exact fun hks => (ih2 k h1) (List.mem_cons_of_mem x hks)

theorem dedupBy_eq_self {α : Type} [LinearOrderedField α] :
    ∀ (seen : List Str) (l : List (Row α)),
      (l.map tickerKey).Nodup → (∀ k ∈ l.map tickerKey, k ∉ seen) →
      dedupBy seen l = l
  | _, [], _, _ => rfl
  | seen, x :: rest, hnd, hdisj => by
    rw [List.map_cons, List.nodup_cons] at hnd
    have hx : tickerKey x ∉ seen :=
      hdisj (tickerKey x) (List.mem_cons_self _ _)
    rw [dedupBy, if_neg hx]
    congr 1
    refine dedupBy_eq_self (tickerKey x :: seen) rest hnd.2 ?_
    intro k hk
    intro hks
    rcases List.mem_cons.mp hks with h1 | h1
    · exact hnd.1 (h1 ▸ hk)
    · exact hdisj k (List.mem_cons_of_mem _ hk) h1

theorem dedupBy_find? {α : Type} [LinearOrderedField α] :
    ∀ (seen : List Str) (l : List (Row α)) (t : Str), t ∉ seen →
      (dedupBy seen l).find? (fun r => tickerKey r == t) =
        l.find? (fun r => tickerKey r == t)
  | _, [], _, _ => rfl
  | seen, x :: rest, t, ht => by
    rw [dedupBy]
    by_cases hx : tickerKey x ∈ seen
    · rw [if_pos hx]
      have hxt : (tickerKey x == t) = false := by
        refine beq_eq_false_iff_ne.mpr (fun he => ?_)
        exact ht (he ▸ hx)
      rw [List.find?_cons, hxt]
      exact dedupBy_find? seen rest t ht
    · rw [if_neg hx, List.find?_cons, List.find?_cons]
      by_cases hxt : tickerKey x = t
      · rw [show (tickerKey x == t) = true from beq_iff_eq.mpr hxt]
      · rw [show (tickerKey x == t) = false from beq_eq_false_iff_ne.mpr hxt]
        refine dedupBy_find? (tickerKey x :: seen) rest t ?_
        intro hmem
        rcases List.mem_cons.mp hmem with h1 | h1
        · exact hxt h1.symm
        · exact ht h1

/-! ## Idempotence of the normalizer -/

theorem tickerKey_cleanseFields {α : Type} [LinearOrderedField α]
    (r : Row α) : tickerKey (cleanseFields r) = tickerKey r := rfl

theorem clampPos_idem {α : Type} [LinearOrderedField α] (v : Option α) :
    clampPos (clampPos v) = clampPos v := by
  cases v with
  | none => rfl
  | some x => by_cases h : x ≤ 0 <;> simp [clampPos, h]

theorem sectorFix_sectorFix (s : Option Str) :
    sectorFix (some (sectorFix s)) = sectorFix s := by
  cases s with
  | none => simp [sectorFix, unknownStr]
  | some t => by_cases h : t = [] <;> simp [sectorFix, h, unknownStr]

theorem cleanseFields_idem {α : Type} [LinearOrderedField α] (r : Row α) :
    cleanseFields (cleanseFields r) = cleanseFields r := by
  cases r
  simp [cleanseFields, clampPos_idem, sectorFix_sectorFix]

theorem normalizeRow_id_of {α : Type} [LinearOrderedField α] (r : Row α)
    (t : Str) (h : r.ticker = some t) (hn : normalizeTicker t = t) :
    normalizeRow r = r := by
  unfold normalizeRow
  rw [h]
  show { r with ticker := some (normalizeTicker t) } = r
  rw [hn, ← h]

theorem keepTicker_of {α : Type} [LinearOrderedField α] (r : Row α)
    (t : Str) (h : r.ticker = some t) (hne : t ≠ []) :
    keepTicker r = true := by
  simp [keepTicker, tickerStr, h, List.isEmpty_iff, hne]

theorem cleanse_row_fact {α : Type} [LinearOrderedField α]
    (df : List (Row α)) (r : Row α) (hr : r ∈ cleanse_fundamentals df) :
    ∃ t, r.ticker = some t ∧ normalizeTicker t = t ∧ t ≠ [] ∧
      cleanseFields r = r := by
  rw [cleanse_fundamentals, List.mem_map] at hr
  obtain ⟨r', hr', rfl⟩ := hr
  have hr2 := mem_of_mem_dedupBy _ _ _ hr'
  rw [List.mem_filter] at hr2
  obtain ⟨hmem, hkeep⟩ := hr2
  rw [List.mem_map] at hmem
  obtain ⟨x, _, rfl⟩ := hmem
  refine ⟨normalizeTicker (tickerStr x.ticker), rfl, normalizeTicker_idem _,
    ?_, cleanseFields_idem _⟩
  intro hnil
  rw [keepTicker] at hkeep
  have : tickerStr (normalizeRow x).ticker =
      normalizeTicker (tickerStr x.ticker) := rfl
  rw [this, hnil] at hkeep
  simp at hkeep

theorem cleanse_map_key {α : Type} [LinearOrderedField α]
    (df : List (Row α)) :
    (cleanse_fundamentals df).map tickerKey =
      dedupStr [] ((normTickers df).filter (fun t => !t.isEmpty)) := by
  rw [cleanse_fundamentals, List.map_map]
  have h1 : (tickerKey ∘ cleanseFields (α := α)) = tickerKey := funext
    (fun r => tickerKey_cleanseFields r)
  rw [h1, dedupBy_map_key]
  congr 1
  rw [List.filter_map, normTickers, List.filter_map, List.map_map]
  rfl

/-- C6: the Snapshot Normalizer is idempotent — applying
`cleanse_fundamentals` to its own output returns the output unchanged. -/
theorem c6_cleanse_idem {α : Type} [LinearOrderedField α]
    (df : List (Row α)) :
    cleanse_fundamentals (cleanse_fundamentals df) =
      cleanse_fundamentals df := by
  have hnodup : ((cleanse_fundamentals df).map tickerKey).Nodup := by
    rw [cleanse_map_key]
    exact (dedupStr_nodup _ _).1
  have h1 : (cleanse_fundamentals df).map normalizeRow =
      cleanse_fundamentals df := by
    have := List.map_congr_left (l := cleanse_fundamentals df)
      (f := normalizeRow) (g := id) (fun r hr => by
        obtain ⟨t, ht, hn, _, _⟩ := cleanse_row_fact df r hr
        exact normalizeRow_id_of r t ht hn)
    rw [this, List.map_id]
  have h2 : (cleanse_fundamentals df).filter keepTicker =
      cleanse_fundamentals df :=
    List.filter_eq_self.mpr (fun r hr => by
      obtain ⟨t, ht, _, hne, _⟩ := cleanse_row_fact df r hr
      exact keepTicker_of r t ht hne)
  have h3 : dedupBy [] (cleanse_fundamentals df) = cleanse_fundamentals df :=
    dedupBy_eq_self [] _ hnodup (by simp)
  show (dedupBy [] (((cleanse_fundamentals df).map normalizeRow).filter
    keepTicker)).map cleanseFields = cleanse_fundamentals df
  rw [h1, h2, h3]
  have := List.map_congr_left (l := cleanse_fundamentals df)
    (f := cleanseFields) (g := id) (fun r hr => by
      obtain ⟨_, _, _, _, hid⟩ := cleanse_row_fact df r hr
      exact hid)
  rw [this, List.map_id]

/-- Counterexample to C7 as stated: a table whose only row has the
all-blank ticker `" "` normalizes to the empty ticker and is dropped, so
the output has 0 rows while the number of distinct normalized tickers of
the input is 1. -/
theorem c7_counterexample :
    (cleanse_fundamentals [rowWS]).length <
      (dedupStr [] (normTickers [rowWS])).length := by decide

/-- C7 (amended): the output row count of the normalizer equals the
number of distinct non-empty normalized tickers of the input; the output
tickers are non-empty and unique; and looking any ticker up in the output
returns the (cleansed) first row of the normalized, empty-filtered input
stream bearing that ticker — first occurrence wins. -/
theorem c7_dedup_amended {α : Type} [LinearOrderedField α]
    (df : List (Row α)) :
    (cleanse_fundamentals df).length =
      (dedupStr [] ((normTickers df).filter (fun t => !t.isEmpty))).length ∧
    ((cleanse_fundamentals df).map tickerKey).Nodup ∧
    (cleanse_fundamentals df).all (fun r => !(tickerKey r).isEmpty) = true ∧
    ∀ t : Str, (cleanse_fundamentals df).find? (fun r => tickerKey r == t) =
      Option.map cleanseFields
        (((df.map normalizeRow).filter keepTicker).find?
          (fun r => tickerKey r == t)) := by
  refine ⟨?_, ?_, ?_, ?_⟩
  · have h := congrArg List.length (cleanse_map_key df)
    rwa [List.length_map] at h
  · rw [cleanse_map_key]
    exact (dedupStr_nodup _ _).1
  · rw [List.all_eq_true]
    intro r hr
    obtain ⟨t, ht, _, hne, _⟩ := cleanse_row_fact df r hr
    simp [tickerKey, tickerStr, ht, List.isEmpty_iff, hne]
  · intro t
    rw [cleanse_fundamentals, List.find?_map]
    have hpf : ((fun r => tickerKey r == t) ∘ cleanseFields (α := α)) =
        (fun r => tickerKey r == t) := rfl
    rw [hpf, dedupBy_find? [] _ t (by simp)]

/-- C10: a row whose ticker cell is absent (NaN) survives the normalizer
— `astype(str)` renders it as the text `"nan"`, which normalizes to the
non-empty ticker `"NAN"` — and the empty-ticker filter removes exactly
the rows whose ticker text is empty after trimming (upper-casing and the
dot replacement never change emptiness). -/
theorem c10_nan_ticker :
    cleanse_fundamentals [rowNaN] = [rowNaNOut] ∧
    normalizeTicker (tickerStr none) = ['N', 'A', 'N'] ∧
    ∀ s : Str, (normalizeTicker s).isEmpty = (strip s).isEmpty := by
  refine ⟨by decide, by decide, normalizeTicker_isEmpty⟩

end OneRule
